import Mathlib

/-!
# Verification of the YouTube download bot (`bot.py`)

A shallow embedding of the pure/decidable core of `bot.py` together with
theorems settling the specification claims.  Strings are modelled as
`List Char`, Python dictionaries as functions into `Option`, times as
rationals, and the external world (yt-dlp, FFmpeg, Telegram, the file
system) as explicit environment parameters recording the outcome of each
external call.
-/

namespace YTBot

/-! ## `sanitize_filename` (bot.py lines 927-947) -/

/-- ASCII whitespace characters recognised by Python's `str.split()` and
`str.strip()`. -/
def isPySpace (c : Char) : Bool :=
  c == ' ' || c == '\t' || c == '\n' || c == '\r' || c == '\x0b' || c == '\x0c'

/-- `invalid_chars` from `sanitize_filename`: characters not allowed in
filenames. -/
def invalid_chars : List Char := ['<', '>', ':', '"', '/', '\\', '|', '?', '*']

/-- The loop `for char in invalid_chars: sanitized = sanitized.replace(char, '')`:
each `str.replace(char, '')` deletes every occurrence of `char`. -/
def removeInvalidChars (title : List Char) : List Char :=
  invalid_chars.foldl (fun s c => s.filter (fun x => x ≠ c)) title

/-- Auxiliary bound used for termination of `splitPy`. -/
theorem length_dropWhile_le (p : Char → Bool) :
    ∀ l : List Char, (l.dropWhile p).length ≤ l.length := by
  intro l
  induction l with
  | nil => simp
  | cons c cs ih =>
    by_cases h : p c
    · simp [List.dropWhile, h]
      omega
    · simp [List.dropWhile, h]

/-- Python's `str.split()` with no argument: splits on runs of whitespace and
drops empty pieces, returning the list of whitespace-free words.  `acc` holds
the (reversed) word currently being read. -/
def splitPyAux : List Char → List Char → List (List Char)
  | [], acc => if acc = [] then [] else [acc.reverse]
  | c :: cs, acc =>
    if isPySpace c then
      if acc = [] then splitPyAux cs [] else acc.reverse :: splitPyAux cs []
    else splitPyAux cs (c :: acc)

/-- Python's `str.split()` with no argument. -/
def splitPy (cs : List Char) : List (List Char) := splitPyAux cs []

/-- Reasoning companion of `splitPy`: the same word list computed by
`takeWhile`/`dropWhile`. -/
def splitPyW : List Char → List (List Char)
  | [] => []
  | c :: cs' =>
    if isPySpace c then splitPyW cs'
    else
      ((c :: cs').takeWhile fun x => !isPySpace x) ::
        splitPyW (cs'.dropWhile fun x => !isPySpace x)
termination_by cs => cs.length
decreasing_by
  · simp only [List.length_cons]
    omega
  · have := length_dropWhile_le (fun x => !isPySpace x) cs'
    simp only [List.length_cons]
    omega

/-- Python's `' '.join(words)`. -/
def joinWords : List (List Char) → List Char
  | [] => []
  | [w] => w
  | w :: ws => w ++ ' ' :: joinWords ws

/-- Python's `str.strip()`: removes leading and trailing whitespace. -/
def stripPy (cs : List Char) : List Char :=
  ((cs.dropWhile isPySpace).reverse.dropWhile isPySpace).reverse

/-- `sanitize_filename(title, max_length=200)` from bot.py: deletes the
invalid characters, collapses whitespace runs to single spaces
(`' '.join(sanitized.split())`), and if the result is longer than
`max_length` truncates to `max_length` characters and strips. -/
def sanitize_filename (title : List Char) (max_length : Nat := 200) : List Char :=
  let s1 := removeInvalidChars title
  let s2 := joinWords (splitPy s1)
  if s2.length > max_length then stripPy (s2.take max_length) else s2

example : sanitize_filename ("  My <Video>: a/b?  c  ".data) = ("My Video ab c".data) := by
  decide

example : sanitize_filename ("a|b".data) 2 = ("ab".data) := by decide

example : sanitize_filename ("ab cd".data) 3 = ("ab".data) := by decide

/-! ### Properties of `sanitize_filename` -/

/-- The two split functions agree. -/
theorem splitPyAux_eq (cs : List Char) : ∀ acc : List Char,
    splitPyAux cs acc =
      if acc = [] then splitPyW cs
      else
        (acc.reverse ++ cs.takeWhile fun x => !isPySpace x) ::
          splitPyW (cs.dropWhile fun x => !isPySpace x) := by
  induction cs with
  | nil =>
    intro acc
    by_cases h : acc = [] <;> simp [splitPyAux, splitPyW, h]
  | cons c cs ih =>
    intro acc
    by_cases hc : isPySpace c
    · by_cases h : acc = []
      · simp [splitPyAux, hc, h, splitPyW, ih]
      · simp [splitPyAux, hc, h, splitPyW, ih, List.takeWhile_cons, List.dropWhile_cons]
    · by_cases h : acc = []
      · subst h
        simp [splitPyAux, hc, ih, splitPyW, List.takeWhile_cons, List.dropWhile_cons]
      · simp [splitPyAux, hc, h, ih, List.takeWhile_cons, List.dropWhile_cons]

theorem splitPy_eq (cs : List Char) : splitPy cs = splitPyW cs := by
  simp [splitPy, splitPyAux_eq]

/-- Every element of `takeWhile p l` satisfies `p`. -/
theorem mem_takeWhile_sat {p : Char → Bool} :
    ∀ {l : List Char} {x : Char}, x ∈ l.takeWhile p → p x = true := by
  intro l
  induction l with
  | nil => simp
  | cons a l ih =>
    intro x hx
    by_cases h : p a
    · rw [List.takeWhile_cons_of_pos h] at hx
      rcases List.mem_cons.mp hx with rfl | hx
      · exact h
      · exact ih hx
    · rw [List.takeWhile_cons_of_neg h] at hx
      simp at hx

/-- The first element surviving `dropWhile p` falsifies `p`. -/
theorem dropWhile_first_not {p : Char → Bool} :
    ∀ {l : List Char} {x : Char} {xs : List Char},
      l.dropWhile p = x :: xs → p x = false := by
  intro l
  induction l with
  | nil => simp [List.dropWhile]
  | cons a l ih =>
    intro x xs h
    by_cases ha : p a
    · rw [List.dropWhile_cons_of_pos ha] at h
      exact ih h
    · rw [List.dropWhile_cons_of_neg ha] at h
      cases h
      simpa using ha

/-- The words produced by `str.split()`: nonempty, whitespace-free, and drawn
from the input. -/
theorem splitPyW_words : ∀ cs : List Char, ∀ w ∈ splitPyW cs,
    w ≠ [] ∧ ∀ c ∈ w, c ∈ cs ∧ isPySpace c = false := by
  intro cs
  induction cs using splitPyW.induct with
  | case1 => simp [splitPyW]
  | case2 c cs' hc ih =>
    intro w hw
    rw [splitPyW, if_pos hc] at hw
    rcases ih w hw with ⟨hne, hmem⟩
    exact ⟨hne, fun x hx => ⟨List.mem_cons_of_mem _ (hmem x hx).1, (hmem x hx).2⟩⟩
  | case3 c cs' hc ih =>
    intro w hw
    rw [splitPyW, if_neg hc] at hw
    rcases List.mem_cons.mp hw with rfl | hw
    · refine ⟨?_, ?_⟩
      · rw [List.takeWhile_cons_of_pos (by simp [hc])]
        simp
      · intro x hx
        refine ⟨List.takeWhile_subset _ hx, ?_⟩
        have := mem_takeWhile_sat hx
        simpa using this
    · rcases ih w hw with ⟨hne, hmem⟩
      refine ⟨hne, fun x hx => ?_⟩
      rcases hmem x hx with ⟨hmem', hsp⟩
      exact ⟨List.mem_cons_of_mem _ (List.dropWhile_subset _ hmem'), hsp⟩

/-- Word lists as produced by `splitPy`: nonempty and whitespace-free words. -/
def GoodWords (ws : List (List Char)) : Prop :=
  ∀ w ∈ ws, w ≠ [] ∧ ∀ c ∈ w, isPySpace c = false

theorem joinWords_cons (w : List Char) (ws : List (List Char)) :
    joinWords (w :: ws) = w ++ (if ws = [] then [] else ' ' :: joinWords ws) := by
  cases ws <;> simp [joinWords]

theorem mem_joinWords {c : Char} :
    ∀ {ws : List (List Char)}, c ∈ joinWords ws → c = ' ' ∨ ∃ w ∈ ws, c ∈ w := by
  intro ws
  induction ws with
  | nil => simp [joinWords]
  | cons w ws ih =>
    cases ws with
    | nil =>
      intro h
      rw [show joinWords [w] = w from rfl] at h
      exact Or.inr ⟨w, by simp, h⟩
    | cons w' ws' =>
      intro h
      rw [show joinWords (w :: w' :: ws') = w ++ ' ' :: joinWords (w' :: ws') from rfl] at h
      rcases List.mem_append.mp h with h | h
      · exact Or.inr ⟨w, by simp, h⟩
      · rcases List.mem_cons.mp h with rfl | h
        · exact Or.inl rfl
        · rcases ih h with h | ⟨u, hu, hc⟩
          · exact Or.inl h
          · exact Or.inr ⟨u, List.mem_cons_of_mem _ hu, hc⟩

theorem joinWords_ne_nil {ws : List (List Char)} (h : GoodWords ws) (hne : ws ≠ []) :
    joinWords ws ≠ [] := by
  cases ws with
  | nil => exact absurd rfl hne
  | cons w ws =>
    rw [joinWords_cons]
    have hw : w ≠ [] := (h w (by simp)).1
    simp [hw]

theorem joinWords_head? {ws : List (List Char)} (hws : GoodWords ws) :
    ∀ c, (joinWords ws).head? = some c → isPySpace c = false := by
  cases ws with
  | nil => simp [joinWords]
  | cons w ws =>
    intro c hc
    rw [joinWords_cons, List.head?_append] at hc
    have hw : w ≠ [] := (hws w (by simp)).1
    obtain ⟨a, t, rfl⟩ := List.exists_cons_of_ne_nil hw
    simp only [List.head?_cons, Option.or_some] at hc
    cases hc
    exact (hws (c :: t) (by simp)).2 c (by simp)

theorem joinWords_getLast? : ∀ ws : List (List Char), GoodWords ws →
    ∀ c, (joinWords ws).getLast? = some c → isPySpace c = false := by
  intro ws
  induction ws with
  | nil => simp [joinWords]
  | cons w ws ih =>
    intro hws c hc
    cases ws with
    | nil =>
      rw [show joinWords [w] = w from rfl] at hc
      exact (hws w (by simp)).2 c (List.mem_of_getLast?_eq_some hc)
    | cons w' ws' =>
      rw [show joinWords (w :: w' :: ws') = w ++ ' ' :: joinWords (w' :: ws') from rfl,
        List.getLast?_append] at hc
      have hgood : GoodWords (w' :: ws') := fun u hu => hws u (List.mem_cons_of_mem _ hu)
      have hnn : joinWords (w' :: ws') ≠ [] := joinWords_ne_nil hgood (by simp)
      obtain ⟨a, t, ht⟩ := List.exists_cons_of_ne_nil hnn
      rw [ht] at hc
      simp only [List.getLast?_cons_cons] at hc
      have : (a :: t).getLast? = some c := by
        rcases (a :: t).getLast?.eq_none_or_eq_some with hn | ⟨v, hv⟩
        · simp at hn
        · rw [hv] at hc ⊢
          simpa using hc
      rw [← ht] at this
      exact ih hgood c this

/-- Adjacent-whitespace-free chains over whitespace-free lists. -/
theorem chain'_of_all_nonspace {w : List Char} (h : ∀ c ∈ w, isPySpace c = false) :
    List.Chain' (fun a b => ¬(isPySpace a = true ∧ isPySpace b = true)) w := by
  induction w with
  | nil => simp
  | cons a w ih =>
    rw [List.chain'_cons']
    refine ⟨fun y _ hy => ?_, ih fun c hc => h c (List.mem_cons_of_mem _ hc)⟩
    rw [h a (by simp)] at hy
    exact absurd hy.1 (by simp)

theorem joinWords_chain' : ∀ ws : List (List Char), GoodWords ws →
    List.Chain' (fun a b => ¬(isPySpace a = true ∧ isPySpace b = true)) (joinWords ws) := by
  intro ws
  induction ws with
  | nil => simp [joinWords]
  | cons w ws ih =>
    intro hws
    cases ws with
    | nil =>
      rw [show joinWords [w] = w from rfl]
      exact chain'_of_all_nonspace ((hws w (by simp)).2)
    | cons w' ws' =>
      have hgood : GoodWords (w' :: ws') := fun u hu => hws u (List.mem_cons_of_mem _ hu)
      rw [show joinWords (w :: w' :: ws') = w ++ ' ' :: joinWords (w' :: ws') from rfl,
        List.chain'_append]
      refine ⟨chain'_of_all_nonspace ((hws w (by simp)).2), ?_, ?_⟩
      · rw [List.chain'_cons']
        refine ⟨fun y hy hcontra => ?_, ih hgood⟩
        rw [joinWords_head? hgood y hy] at hcontra
        exact absurd hcontra.2 (by simp)
      · intro x hx y hy hcontra
        have hxw : x ∈ w := List.mem_of_getLast?_eq_some hx
        rw [(hws w (by simp)).2 x hxw] at hcontra
        exact absurd hcontra.1 (by simp)

/-- The separating-space discipline established by `' '.join(s.split())`:
every whitespace character is a plain space, the string neither starts nor
ends with whitespace, and no two adjacent characters are both whitespace. -/
def SpaceCanon (cs : List Char) : Prop :=
  (∀ c ∈ cs, isPySpace c = true → c = ' ') ∧
  (∀ c, cs.head? = some c → isPySpace c = false) ∧
  (∀ c, cs.getLast? = some c → isPySpace c = false) ∧
  List.Chain' (fun a b => ¬(isPySpace a = true ∧ isPySpace b = true)) cs

theorem joinWords_spaceCanon {ws : List (List Char)} (h : GoodWords ws) :
    SpaceCanon (joinWords ws) := by
  refine ⟨?_, joinWords_head? h, joinWords_getLast? ws h, joinWords_chain' ws h⟩
  intro c hc _
  rcases mem_joinWords hc with rfl | ⟨w, hw, hcw⟩
  · rfl
  · rw [(h w hw).2 c hcw] at *
    simp_all

/-- Splitting a canonical string and re-joining with single spaces is the
identity. -/
theorem joinWords_splitPyW : ∀ n : Nat, ∀ cs : List Char, cs.length ≤ n →
    SpaceCanon cs → joinWords (splitPyW cs) = cs := by
  intro n
  induction n with
  | zero =>
    intro cs hlen _
    cases cs with
    | nil => simp [splitPyW, joinWords]
    | cons c cs => simp at hlen
  | succ n ih =>
    intro cs hlen hcanon
    obtain ⟨hchar, hhead, hlast, hchain⟩ := hcanon
    cases cs with
    | nil => simp [splitPyW, joinWords]
    | cons c cs' =>
      have hc : isPySpace c = false := hhead c rfl
      rw [splitPyW, if_neg (by simp [hc])]
      have hsplit : ((c :: cs').takeWhile fun x => !isPySpace x) ++
          ((c :: cs').dropWhile fun x => !isPySpace x) = c :: cs' :=
        List.takeWhile_append_dropWhile _ _
      have hdw : ((c :: cs').dropWhile fun x => !isPySpace x) =
          (cs'.dropWhile fun x => !isPySpace x) :=
        List.dropWhile_cons_of_pos (by simp [hc])
      cases hrc : cs'.dropWhile fun x => !isPySpace x with
      | nil =>
        have hwall : ((c :: cs').takeWhile fun x => !isPySpace x) = c :: cs' := by
          conv_rhs => rw [← hsplit]
          rw [hdw, hrc, List.append_nil]
        rw [show splitPyW [] = [] from by rw [splitPyW],
          show ∀ u : List Char, joinWords [u] = u from fun u => rfl, hwall]
      | cons d ds =>
        have hd : isPySpace d = true := by
          have h1 := dropWhile_first_not hrc
          simpa using h1
        have hdmem : d ∈ c :: cs' := by
          have h0 : d ∈ cs'.dropWhile fun x => !isPySpace x := by rw [hrc]; simp
          exact List.mem_cons_of_mem _ (List.dropWhile_subset _ h0)
        have hdsp : d = ' ' := hchar d hdmem hd
        subst hdsp
        have hcs : c :: cs' = ((c :: cs').takeWhile fun x => !isPySpace x) ++ ' ' :: ds := by
          conv_lhs => rw [← hsplit]
          rw [hdw, hrc]
        have hlast' : ∀ x, (((c :: cs').takeWhile fun x => !isPySpace x) ++
            ' ' :: ds).getLast? = some x → isPySpace x = false := by
          intro x hx
          exact hlast x (by rw [hcs]; exact hx)
        have hds_ne : ds ≠ [] := by
          intro hnil
          subst hnil
          have h2 : ((((c :: cs').takeWhile fun x => !isPySpace x)) ++
              [' ']).getLast? = some ' ' := by simp
          have h3 := hlast' ' ' h2
          simp [isPySpace] at h3
        have hchain2 : List.Chain' (fun a b => ¬(isPySpace a = true ∧ isPySpace b = true))
            (' ' :: ds) := by
          rw [hcs] at hchain
          exact (List.chain'_append.mp hchain).2.1
        have hds_head : ∀ x, ds.head? = some x → isPySpace x = false := by
          intro x hx
          have h4 := (List.chain'_cons'.mp hchain2).1 x hx
          by_contra hxx
          exact h4 ⟨by decide, by simpa using hxx⟩
        have hds_last : ∀ x, ds.getLast? = some x → isPySpace x = false := by
          intro x hx
          obtain ⟨a, t, rfl⟩ := List.exists_cons_of_ne_nil hds_ne
          apply hlast' x
          simp only [List.getLast?_append, List.getLast?_cons_cons]
          rw [hx]
          rfl
        have hds_canon : SpaceCanon ds :=
          ⟨fun x hx _ => hchar x (by rw [hcs]; simp [hx]) (by assumption), hds_head,
            hds_last, (List.chain'_cons'.mp hchain2).2⟩
        have h5 := congrArg List.length hcs
        simp only [List.length_cons, List.length_append] at h5
        have hds_len : ds.length ≤ n := by
          simp only [List.length_cons] at hlen
          omega
        have hds_join : joinWords (splitPyW ds) = ds := ih ds hds_len hds_canon
        rw [show splitPyW (' ' :: ds) = splitPyW ds from by
          rw [splitPyW]; simp [isPySpace]]
        obtain ⟨a, t, hat⟩ := List.exists_cons_of_ne_nil hds_ne
        have ha : isPySpace a = false := hds_head a (by rw [hat]; rfl)
        have hcons : splitPyW ds = ((a :: t).takeWhile fun x => !isPySpace x) ::
            splitPyW (t.dropWhile fun x => !isPySpace x) := by
          rw [hat, splitPyW, if_neg (by simp [ha])]
        rw [hcons] at hds_join ⊢
        rw [show ∀ (u v : List Char) (vs : List (List Char)),
          joinWords (u :: v :: vs) = u ++ ' ' :: joinWords (v :: vs) from fun u v vs => rfl]
        rw [hds_join]
        exact hcs.symm

/-- The sequence of `replace(char, '')` calls is a single filter. -/
theorem foldl_filter_eq (inv : List Char) : ∀ t : List Char,
    inv.foldl (fun s c => s.filter (fun x => x ≠ c)) t =
      t.filter (fun x => decide (x ∉ inv)) := by
  induction inv with
  | nil => intro t; simp
  | cons a inv ih =>
    intro t
    rw [List.foldl_cons, ih, List.filter_filter]
    congr 1
    funext x
    by_cases hx : x = a <;> by_cases hx2 : x ∈ inv <;> simp [hx, hx2]

theorem removeInvalidChars_eq (t : List Char) :
    removeInvalidChars t = t.filter (fun x => decide (x ∉ invalid_chars)) :=
  foldl_filter_eq invalid_chars t

theorem not_invalid_of_mem_removeInvalidChars {c : Char} {t : List Char}
    (h : c ∈ removeInvalidChars t) : c ∉ invalid_chars := by
  rw [removeInvalidChars_eq] at h
  simpa using (List.mem_filter.mp h).2

/-! ### `stripPy` and truncation -/

theorem head?_take (l : List Char) (n : Nat) :
    (l.take n).head? = if n = 0 then none else l.head? := by
  cases n with
  | zero => simp
  | succ n => cases l <;> simp

/-- On a string with no leading whitespace, `strip()` returns a prefix whose
last character (if any) is not whitespace. -/
theorem stripPy_spec (u : List Char)
    (hhead : ∀ c, u.head? = some c → isPySpace c = false) :
    stripPy u <+: u ∧
      (∀ x, (stripPy u).getLast? = some x → isPySpace x = false) := by
  have hdrop : u.dropWhile isPySpace = u := by
    cases u with
    | nil => rfl
    | cons c cs => exact List.dropWhile_cons_of_neg (by simp [hhead c rfl])
  constructor
  · rw [stripPy, hdrop]
    refine List.reverse_suffix.mp ?_
    rw [List.reverse_reverse]
    exact List.dropWhile_suffix _
  · intro x hx
    rw [stripPy, hdrop, List.getLast?_reverse] at hx
    cases hdd : u.reverse.dropWhile isPySpace with
    | nil => rw [hdd] at hx; simp at hx
    | cons a t =>
      rw [hdd] at hx
      simp only [List.head?_cons, Option.some.injEq] at hx
      subst hx
      exact dropWhile_first_not hdd

theorem head?_of_isPrefix {v u : List Char} (h : v <+: u) (hv : v ≠ []) :
    v.head? = u.head? := by
  obtain ⟨t, rfl⟩ := h
  cases v with
  | nil => exact absurd rfl hv
  | cons a l => simp

/-- `Chain'` restricts to prefixes. -/
theorem chain'_of_isPrefix {R : Char → Char → Prop} {l₁ l₂ : List Char}
    (hc : List.Chain' R l₂) (hp : l₁ <+: l₂) : List.Chain' R l₁ := by
  obtain ⟨t, rfl⟩ := hp
  exact (List.chain'_append.mp hc).1

/-- Unfolding of `sanitize_filename` through `splitPyW`. -/
theorem sanitize_filename_eq (t : List Char) (m : Nat) :
    sanitize_filename t m =
      if (joinWords (splitPyW (removeInvalidChars t))).length > m
      then stripPy ((joinWords (splitPyW (removeInvalidChars t))).take m)
      else joinWords (splitPyW (removeInvalidChars t)) := by
  simp only [sanitize_filename, splitPy_eq]

/-- Output invariants of `sanitize_filename`: bounded length, no invalid
characters, canonical spacing. -/
theorem sanitize_core (t : List Char) (m : Nat) :
    (sanitize_filename t m).length ≤ m ∧
    (∀ c ∈ sanitize_filename t m, c ∉ invalid_chars) ∧
    SpaceCanon (sanitize_filename t m) := by
  have hgood : GoodWords (splitPyW (removeInvalidChars t)) := by
    intro w hw
    rcases splitPyW_words _ w hw with ⟨hne, hmem⟩
    exact ⟨hne, fun c hc => (hmem c hc).2⟩
  have hcanon : SpaceCanon (joinWords (splitPyW (removeInvalidChars t))) :=
    joinWords_spaceCanon hgood
  have hninv : ∀ c ∈ joinWords (splitPyW (removeInvalidChars t)), c ∉ invalid_chars := by
    intro c hc
    rcases mem_joinWords hc with rfl | ⟨w, hw, hcw⟩
    · decide
    · exact not_invalid_of_mem_removeInvalidChars ((splitPyW_words _ w hw).2 c hcw).1
  rw [sanitize_filename_eq]
  obtain ⟨hchar, hhead, hlast, hchain⟩ := hcanon
  by_cases hlen : (joinWords (splitPyW (removeInvalidChars t))).length > m
  · rw [if_pos hlen]
    have hu_head : ∀ c, ((joinWords (splitPyW (removeInvalidChars t))).take m).head? =
        some c → isPySpace c = false := by
      intro c hc
      rw [head?_take] at hc
      by_cases hm : m = 0
      · rw [if_pos hm] at hc; cases hc
      · rw [if_neg hm] at hc; exact hhead c hc
    obtain ⟨hpre, hlast'⟩ := stripPy_spec _ hu_head
    have hsub : stripPy ((joinWords (splitPyW (removeInvalidChars t))).take m) ⊆
        joinWords (splitPyW (removeInvalidChars t)) :=
      fun _ hx => List.take_subset _ _ (hpre.subset hx)
    refine ⟨?_, fun c hc => hninv c (hsub hc), ?_, ?_, hlast', ?_⟩
    · calc (stripPy ((joinWords (splitPyW (removeInvalidChars t))).take m)).length
          ≤ ((joinWords (splitPyW (removeInvalidChars t))).take m).length :=
            hpre.length_le
        _ ≤ m := by simp
    · exact fun c hc hsp => hchar c (hsub hc) hsp
    · intro c hc
      by_cases hnil : stripPy ((joinWords (splitPyW (removeInvalidChars t))).take m) = []
      · rw [hnil] at hc; cases hc
      · rw [head?_of_isPrefix hpre hnil] at hc
        exact hu_head c hc
    · have htake : (joinWords (splitPyW (removeInvalidChars t))).take m <+:
          joinWords (splitPyW (removeInvalidChars t)) := ⟨_, List.take_append_drop _ _⟩
      exact chain'_of_isPrefix (chain'_of_isPrefix hchain htake) hpre
  · rw [if_neg hlen]
    exact ⟨by omega, hninv, hchar, hhead, hlast, hchain⟩

/-- `sanitize_filename` is the identity on canonical, invalid-free, short
inputs. -/
theorem sanitize_fixed {r : List Char} (m : Nat)
    (h1 : ∀ c ∈ r, c ∉ invalid_chars) (h2 : SpaceCanon r) (h3 : r.length ≤ m) :
    sanitize_filename r m = r := by
  have hrm : removeInvalidChars r = r := by
    rw [removeInvalidChars_eq]
    apply List.filter_eq_self.mpr
    intro a ha
    simpa using h1 a ha
  have hjoin : joinWords (splitPyW r) = r := joinWords_splitPyW r.length r le_rfl h2
  rw [sanitize_filename_eq, hrm, hjoin, if_neg (by omega)]

/-- C10: `sanitize_filename` always returns a string of length at most
`max_length` that contains none of the characters `< > : " / \ | ? *` and has
no leading, trailing, or consecutive spaces, and it is idempotent:
`sanitize_filename (sanitize_filename t)` equals `sanitize_filename t` for
every title `t`. -/
theorem claim_C10_sanitize_filename (t : List Char) (m : Nat) :
    (sanitize_filename t m).length ≤ m ∧
    (∀ c ∈ sanitize_filename t m, c ∉ invalid_chars) ∧
    (∀ c, (sanitize_filename t m).head? = some c → c ≠ ' ') ∧
    (∀ c, (sanitize_filename t m).getLast? = some c → c ≠ ' ') ∧
    List.Chain' (fun a b => ¬(a = ' ' ∧ b = ' ')) (sanitize_filename t m) ∧
    sanitize_filename (sanitize_filename t m) m = sanitize_filename t m := by
  obtain ⟨hl, hninv, hchar, hhead, hlast, hchain⟩ := sanitize_core t m
  have hsp : isPySpace ' ' = true := by decide
  refine ⟨hl, hninv, ?_, ?_, ?_, ?_⟩
  · intro c hc h
    subst h
    exact absurd (hsp.symm.trans (hhead _ hc)) (by decide)
  · intro c hc h
    subst h
    exact absurd (hsp.symm.trans (hlast _ hc)) (by decide)
  · refine hchain.imp ?_
    intro a b hR ⟨ha, hb⟩
    subst ha
    subst hb
    exact hR ⟨hsp, hsp⟩
  · exact sanitize_fixed m hninv ⟨hchar, hhead, hlast, hchain⟩ hl

/-! ## `download_and_convert_youtube` (bot.py lines 950-1164)

The strategy loop is modelled by the list of outcomes the external world
(yt-dlp + FFmpeg + file system) produces for each configured strategy, in
order.  One `DlOutcome` summarises one iteration of
`for i, strategy in enumerate(download_strategies)`:

* `success path` — `extract_info` returned, the MP3 file was found (after the
  rename attempt) and `expected_final_path` exists: the loop returns `path`;
* `noFile` — the download ran but no MP3 file exists afterwards (the
  `CRITICAL: No MP3 file was found` branch);
* `dlError known` — `yt_dlp.utils.DownloadError` was raised; `known` records
  whether its message matches one of the recognised retryable patterns
  (`Sign in to confirm`, `DPAPI`, `HTTP Error 403`, ...);
* `genError` — any other exception was raised.
-/

inductive DlOutcome where
  | success (path : List Char)
  | noFile
  | dlError (known : Bool)
  | genError
deriving DecidableEq, Repr

/-- An outcome on which the loop moves on to the next strategy (when one
remains): a missing output file, a general exception, or a `DownloadError`
whose message matches one of the recognised patterns. -/
def DlOutcome.retryable : DlOutcome → Bool
  | .success _ => false
  | .noFile => true
  | .dlError known => known
  | .genError => true

/-- `download_and_convert_youtube`, as a function of the per-strategy
outcomes.  Mirrors the control flow of the strategy loop: a success returns
immediately; `noFile` and `genError` continue when a strategy remains and
return `None` at the last one; a `DownloadError` continues only when a
strategy remains *and* the message is recognised, and otherwise returns
`None` at once. -/
def download_and_convert_youtube : List DlOutcome → Option (List Char)
  | [] => none
  | [o] =>
    match o with
    | .success p => some p
    | _ => none
  | o :: rest =>
    match o with
    | .success p => some p
    | .noFile => download_and_convert_youtube rest
    | .dlError known =>
      if known then download_and_convert_youtube rest else none
    | .genError => download_and_convert_youtube rest

example :
    download_and_convert_youtube [.dlError true, .success ("x.mp3".data)] =
      some ("x.mp3".data) := by decide

example : download_and_convert_youtube [.noFile, .dlError true] = none := by decide

/-- C1 counterexample: with two strategies, the first failing with a
`DownloadError` whose message matches none of the recognised patterns and the
second one succeeding, the loop returns `None` without trying the second
strategy — refuting "returning None only after every strategy in the list has
been tried and has failed". -/
theorem claim_C1_counterexample :
    download_and_convert_youtube
        [.dlError false, .success ("x.mp3".data)] = none ∧
      DlOutcome.success ("x.mp3".data) ∈
        [DlOutcome.dlError false, DlOutcome.success ("x.mp3".data)] :=
  ⟨by decide, by decide⟩

/-- C1 (amended): the strategies are tried in order, and the result is the
path of the first success, provided every earlier strategy failed retryably
(missing output file, general exception, or a `DownloadError` with a
recognised message); equivalently, `None` is returned exactly when no strategy
succeeds after a prefix of retryable failures — in particular an unrecognised
`DownloadError` on a non-final strategy aborts the remaining ones. -/
theorem claim_C1_download_strategy_order (outs : List DlOutcome) (p : List Char) :
    download_and_convert_youtube outs = some p ↔
      ∃ pre post, outs = pre ++ DlOutcome.success p :: post ∧
        ∀ o ∈ pre, o.retryable = true := by
  induction outs with
  | nil =>
    constructor
    · intro h
      exact absurd h (by simp [download_and_convert_youtube])
    · rintro ⟨pre, post, h, -⟩
      exact absurd h (by simp)
  | cons o rest ih =>
    constructor
    · intro h
      cases rest with
      | nil =>
        cases o with
        | success q =>
          have hq : q = p := by simpa [download_and_convert_youtube] using h
          subst hq
          exact ⟨[], [], rfl, by simp⟩
        | noFile => exact absurd h (by simp [download_and_convert_youtube])
        | dlError known => exact absurd h (by simp [download_and_convert_youtube])
        | genError => exact absurd h (by simp [download_and_convert_youtube])
      | cons r rest' =>
        cases o with
        | success q =>
          have hq : q = p := by simpa [download_and_convert_youtube] using h
          subst hq
          exact ⟨[], r :: rest', rfl, by simp⟩
        | noFile =>
          obtain ⟨pre, post, heq, hpre⟩ := ih.mp h
          refine ⟨.noFile :: pre, post, by rw [List.cons_append, heq], ?_⟩
          intro x hx
          rcases List.mem_cons.mp hx with rfl | hx
          · rfl
          · exact hpre x hx
        | genError =>
          obtain ⟨pre, post, heq, hpre⟩ := ih.mp h
          refine ⟨.genError :: pre, post, by rw [List.cons_append, heq], ?_⟩
          intro x hx
          rcases List.mem_cons.mp hx with rfl | hx
          · rfl
          · exact hpre x hx
        | dlError known =>
          cases known with
          | false => exact absurd h (by simp [download_and_convert_youtube])
          | true =>
            have h' : download_and_convert_youtube (r :: rest') = some p := by
              simpa [download_and_convert_youtube] using h
            obtain ⟨pre, post, heq, hpre⟩ := ih.mp h'
            refine ⟨.dlError true :: pre, post, by rw [List.cons_append, heq], ?_⟩
            intro x hx
            rcases List.mem_cons.mp hx with rfl | hx
            · rfl
            · exact hpre x hx
    · rintro ⟨pre, post, heq, hpre⟩
      cases pre with
      | nil =>
        simp only [List.nil_append] at heq
        injection heq with h1 h2
        subst h1
        subst h2
        cases rest with
        | nil => rfl
        | cons r rest' => rfl
      | cons a pre' =>
        simp only [List.cons_append] at heq
        injection heq with h1 h2
        subst h1
        have hdl : download_and_convert_youtube rest = some p :=
          ih.mpr ⟨pre', post, h2, fun x hx => hpre x (List.mem_cons_of_mem _ hx)⟩
        have ha : o.retryable = true := hpre o (by simp)
        have hrest : rest ≠ [] := by
          rw [h2]
          simp
        obtain ⟨r, rest', rfl⟩ := List.exists_cons_of_ne_nil hrest
        cases o with
        | success q => exact absurd ha (by simp [DlOutcome.retryable])
        | noFile => exact hdl
        | genError => exact hdl
        | dlError known =>
          have hk : known = true := by simpa [DlOutcome.retryable] using ha
          subst hk
          simpa [download_and_convert_youtube] using hdl


/-! ## `process_audio_download` / `process_video_download`
(bot.py lines 651-780 and 783-924)

Each handler is modelled as the trace of externally visible effects it
performs, as a function of an environment describing the outcomes of the
external calls: the download result (path and byte size of the produced
file), whether the initial status edit succeeded (`processing_message` set),
and whether the Pyrogram/PTB sends succeed.  Message texts keep the ASCII
core of the source strings (emoji prefixes omitted).
-/

inductive Effect where
  | editStatus (text : List Char)
  | sendAudioPTB (path : List Char)
  | sendVideoPTB (path : List Char)
  | sendAudioPyro (path : List Char)
  | sendVideoPyro (path : List Char)
  | deleteStatus
  | sendMessage (text : List Char)
  | removeFile (path : List Char)
deriving DecidableEq, Repr

def TELEGRAM_AUDIO_LIMIT_BYTES : Nat := 50 * 1024 * 1024
def TELEGRAM_VIDEO_LIMIT_BYTES : Nat := 2 * 1024 * 1024 * 1024
def TELEGRAM_PTB_LIMIT_BYTES : Nat := 50 * 1024 * 1024

structure AudioEnv where
  downloadResult : Option (List Char × Nat)
  editOk : Bool
  pyrogramOk : Bool
  ptbOk : Bool

structure VideoEnv where
  downloadResult : Option (List Char × Nat)
  editOk : Bool
  pyrogramOk : Bool
  ptbOk : Bool

def processingAudioText : List Char := "Processing audio, please wait...".data
def cantProcessText : List Char := "Couldn't process YouTube link. Try again later.".data
def largeAudioText : List Char :=
  "Audio is large, uploading with alternative method...".data
def largeAudioSentText : List Char :=
  "Large audio sent! Send another link to download.".data
def failedLargeAudioText : List Char := "Failed to send large audio file.".data
def audioSentText : List Char := "Audio sent! Send another link to download.".data
def errorSendingAudioText : List Char := "Error sending audio.".data

def downloadingVideoText (height : Nat) : List Char :=
  ("Downloading video at " ++ toString height ++ "p, please wait...").data
def cantDownloadVideoText : List Char :=
  "Couldn't download video. Try a different quality or try again later.".data
def tooLargeText (size : Nat) : List Char :=
  ("Video is too large (" ++ toString (size / (1024 * 1024)) ++
    "MB). Telegram limit is 2GB.").data
def uploadingVideoText (size : Nat) : List Char :=
  ("Uploading video (" ++ toString (size / (1024 * 1024)) ++ "MB)...").data
def videoSentText : List Char := "Video sent! Send another link to download.".data
def failedVideoText : List Char := "Failed to send video file.".data
def errorSendingVideoText : List Char := "Error sending video.".data

/-- `process_audio_download`: status edit, download, size-threshold dispatch
to Pyrogram or PTB, outcome messages, and the `finally` cleanup. -/
def process_audio_download (env : AudioEnv) : List Effect :=
  (if env.editOk then [Effect.editStatus processingAudioText] else []) ++
  (match env.downloadResult with
   | none =>
     if env.editOk then [Effect.editStatus cantProcessText]
     else [Effect.sendMessage cantProcessText]
   | some (path, size) =>
     if size > TELEGRAM_AUDIO_LIMIT_BYTES then
       (if env.editOk then [Effect.editStatus largeAudioText] else []) ++
       [Effect.sendAudioPyro path] ++
       (if env.pyrogramOk then
          (if env.editOk then [Effect.deleteStatus] else []) ++
          [Effect.sendMessage largeAudioSentText]
        else [Effect.sendMessage failedLargeAudioText])
     else
       [Effect.sendAudioPTB path] ++
       (if env.ptbOk then
          (if env.editOk then [Effect.deleteStatus] else []) ++
          [Effect.sendMessage audioSentText]
        else [Effect.sendMessage errorSendingAudioText])) ++
  (match env.downloadResult with
   | some (path, _) => [Effect.removeFile path]
   | none => [])

/-- `process_video_download`: status edit, download, 2 GiB cap check,
size-threshold dispatch, outcome messages, and the `finally` cleanup. -/
def process_video_download (env : VideoEnv) (height : Nat) : List Effect :=
  (if env.editOk then [Effect.editStatus (downloadingVideoText height)] else []) ++
  (match env.downloadResult with
   | none =>
     if env.editOk then [Effect.editStatus cantDownloadVideoText]
     else [Effect.sendMessage cantDownloadVideoText]
   | some (path, size) =>
     if size > TELEGRAM_VIDEO_LIMIT_BYTES then
       [Effect.sendMessage (tooLargeText size)]
     else if size > TELEGRAM_PTB_LIMIT_BYTES then
       (if env.editOk then [Effect.editStatus (uploadingVideoText size)] else []) ++
       [Effect.sendVideoPyro path] ++
       (if env.pyrogramOk then
          (if env.editOk then [Effect.deleteStatus] else []) ++
          [Effect.sendMessage videoSentText]
        else [Effect.sendMessage failedVideoText])
     else
       [Effect.sendVideoPTB path] ++
       (if env.ptbOk then
          (if env.editOk then [Effect.deleteStatus] else []) ++
          [Effect.sendMessage videoSentText]
        else [Effect.sendMessage errorSendingVideoText])) ++
  (match env.downloadResult with
   | some (path, _) => [Effect.removeFile path]
   | none => [])

/-- C2: transport selection is a single size-threshold branch at
`50*1024*1024` bytes: in `process_audio_download` (and equally in
`process_video_download` for files within the 2 GiB cap) a file larger than
the threshold is routed to the Pyrogram transport and never to the primary
one, and a file of at most the threshold is routed to the primary transport
(`context.bot.send_audio` / `send_video`) and never to Pyrogram. -/
theorem claim_C2_transport_threshold (aenv : AudioEnv) (venv : VideoEnv)
    (height : Nat) (path vpath : List Char) (size vsize : Nat)
    (ha : aenv.downloadResult = some (path, size))
    (hv : venv.downloadResult = some (vpath, vsize))
    (hcap : vsize ≤ TELEGRAM_VIDEO_LIMIT_BYTES) :
    ((size > 50 * 1024 * 1024 →
        Effect.sendAudioPyro path ∈ process_audio_download aenv ∧
        Effect.sendAudioPTB path ∉ process_audio_download aenv) ∧
     (size ≤ 50 * 1024 * 1024 →
        Effect.sendAudioPTB path ∈ process_audio_download aenv ∧
        Effect.sendAudioPyro path ∉ process_audio_download aenv)) ∧
    ((vsize > 50 * 1024 * 1024 →
        Effect.sendVideoPyro vpath ∈ process_video_download venv height ∧
        Effect.sendVideoPTB vpath ∉ process_video_download venv height) ∧
     (vsize ≤ 50 * 1024 * 1024 →
        Effect.sendVideoPTB vpath ∈ process_video_download venv height ∧
        Effect.sendVideoPyro vpath ∉ process_video_download venv height)) := by
  refine ⟨⟨?_, ?_⟩, ?_, ?_⟩
  · intro hbig
    have hgt : TELEGRAM_AUDIO_LIMIT_BYTES < size := by
      simpa [TELEGRAM_AUDIO_LIMIT_BYTES] using hbig
    rcases h1 : aenv.editOk with _ | _ <;> rcases h2 : aenv.pyrogramOk with _ | _ <;>
      simp [process_audio_download, ha, h1, h2, hgt]
  · intro hsmall
    have hle : ¬ TELEGRAM_AUDIO_LIMIT_BYTES < size := by
      simp only [TELEGRAM_AUDIO_LIMIT_BYTES]
      omega
    rcases h1 : aenv.editOk with _ | _ <;> rcases h3 : aenv.ptbOk with _ | _ <;>
      simp [process_audio_download, ha, h1, h3, hle]
  · intro hbig
    have hgt : TELEGRAM_PTB_LIMIT_BYTES < vsize := by
      simpa [TELEGRAM_PTB_LIMIT_BYTES] using hbig
    have hle : ¬ TELEGRAM_VIDEO_LIMIT_BYTES < vsize := by omega
    rcases h1 : venv.editOk with _ | _ <;> rcases h2 : venv.pyrogramOk with _ | _ <;>
      simp [process_video_download, hv, h1, h2, hgt, hle]
  · intro hsmall
    have hle : ¬ TELEGRAM_PTB_LIMIT_BYTES < vsize := by
      simp only [TELEGRAM_PTB_LIMIT_BYTES]
      omega
    have hle2 : ¬ TELEGRAM_VIDEO_LIMIT_BYTES < vsize := by omega
    rcases h1 : venv.editOk with _ | _ <;> rcases h3 : venv.ptbOk with _ | _ <;>
      simp [process_video_download, hv, h1, h3, hle, hle2]

/-- C2 witness: a 60 MiB audio file goes through Pyrogram; a 40 MiB video
goes through the primary transport. -/
theorem claim_C2_transport_threshold_witness :
    Effect.sendAudioPyro ("a.mp3".data) ∈
      process_audio_download ⟨some ("a.mp3".data, 60 * 1024 * 1024), true, true, true⟩ ∧
    Effect.sendVideoPTB ("v.mp4".data) ∈
      process_video_download ⟨some ("v.mp4".data, 40 * 1024 * 1024), true, true, true⟩ 720 :=
  ⟨((claim_C2_transport_threshold
      ⟨some ("a.mp3".data, 60 * 1024 * 1024), true, true, true⟩
      ⟨some ("v.mp4".data, 40 * 1024 * 1024), true, true, true⟩
      720 ("a.mp3".data) ("v.mp4".data) (60 * 1024 * 1024) (40 * 1024 * 1024)
      rfl rfl (by decide)).1.1 (by decide)).1,
   ((claim_C2_transport_threshold
      ⟨some ("a.mp3".data, 60 * 1024 * 1024), true, true, true⟩
      ⟨some ("v.mp4".data, 40 * 1024 * 1024), true, true, true⟩
      720 ("a.mp3".data) ("v.mp4".data) (60 * 1024 * 1024) (40 * 1024 * 1024)
      rfl rfl (by decide)).2.2 (by decide)).1⟩

/-- C3: a downloaded video over `2*1024*1024*1024` bytes produces the
"too large" message and is sent on neither transport (the `finally` cleanup
still removes the file). -/
theorem claim_C3_video_too_large (env : VideoEnv) (height : Nat)
    (path : List Char) (size : Nat)
    (h : env.downloadResult = some (path, size))
    (hbig : size > 2 * 1024 * 1024 * 1024) :
    Effect.sendMessage (tooLargeText size) ∈ process_video_download env height ∧
    Effect.sendVideoPTB path ∉ process_video_download env height ∧
    Effect.sendVideoPyro path ∉ process_video_download env height ∧
    Effect.removeFile path ∈ process_video_download env height := by
  have hgt : TELEGRAM_VIDEO_LIMIT_BYTES < size := by
    simpa [TELEGRAM_VIDEO_LIMIT_BYTES] using hbig
  rcases h1 : env.editOk with _ | _ <;>
    simp [process_video_download, h, h1, hgt]

/-- C3 witness: a 3 GiB download is rejected with the message and no send. -/
theorem claim_C3_video_too_large_witness :
    Effect.sendMessage (tooLargeText (3 * 1024 * 1024 * 1024)) ∈
      process_video_download
        ⟨some ("v.mp4".data, 3 * 1024 * 1024 * 1024), true, true, true⟩ 1080 ∧
    Effect.sendVideoPTB ("v.mp4".data) ∉
      process_video_download
        ⟨some ("v.mp4".data, 3 * 1024 * 1024 * 1024), true, true, true⟩ 1080 ∧
    Effect.sendVideoPyro ("v.mp4".data) ∉
      process_video_download
        ⟨some ("v.mp4".data, 3 * 1024 * 1024 * 1024), true, true, true⟩ 1080 ∧
    Effect.removeFile ("v.mp4".data) ∈
      process_video_download
        ⟨some ("v.mp4".data, 3 * 1024 * 1024 * 1024), true, true, true⟩ 1080 :=
  claim_C3_video_too_large ⟨some ("v.mp4".data, 3 * 1024 * 1024 * 1024), true, true, true⟩
    1080 ("v.mp4".data) (3 * 1024 * 1024 * 1024) rfl (by decide)

/-- C5: on every outcome, a successfully downloaded temporary file is removed
by the handler's `finally` cleanup step — the trace of each handler ends with
`removeFile` on the downloaded path. -/
theorem claim_C5_cleanup (aenv : AudioEnv) (venv : VideoEnv) (height : Nat)
    (path vpath : List Char) (size vsize : Nat)
    (ha : aenv.downloadResult = some (path, size))
    (hv : venv.downloadResult = some (vpath, vsize)) :
    (process_audio_download aenv).getLast? = some (Effect.removeFile path) ∧
    (process_video_download venv height).getLast? = some (Effect.removeFile vpath) := by
  constructor
  · rw [process_audio_download, ha]
    simp [List.getLast?_append]
  · rw [process_video_download, hv]
    simp [List.getLast?_append]

/-- C5 witness: cleanup runs both after a failed Pyrogram send of a large
audio file and after a successful primary-transport video send. -/
theorem claim_C5_cleanup_witness :
    (process_audio_download
        ⟨some ("a.mp3".data, 60 * 1024 * 1024), true, false, true⟩).getLast? =
      some (Effect.removeFile ("a.mp3".data)) ∧
    (process_video_download
        ⟨some ("v.mp4".data, 10 * 1024 * 1024), false, true, true⟩ 480).getLast? =
      some (Effect.removeFile ("v.mp4".data)) :=
  claim_C5_cleanup
    ⟨some ("a.mp3".data, 60 * 1024 * 1024), true, false, true⟩
    ⟨some ("v.mp4".data, 10 * 1024 * 1024), false, true, true⟩
    480 ("a.mp3".data) ("v.mp4".data) (60 * 1024 * 1024) (10 * 1024 * 1024) rfl rfl

/-! ## `send_audio_with_pyrogram` / `send_video_with_pyrogram`
(bot.py lines 513-603 and 1257-1315)

`API_ID`/`API_HASH` come from `os.getenv`, i.e. `None` when unset; Python
truthiness also rejects the empty string.  `int(API_ID)` is modelled by
`pyIntValid`: optional surrounding whitespace, an optional sign, and digits
with single underscores between them.  Each sender returns the pair
(returned boolean, whether an upload was attempted).
-/

structure PyroCfg where
  api_id : Option (List Char)
  api_hash : Option (List Char)

/-- Python truthiness of an `os.getenv` result. -/
def pyTruthy : Option (List Char) → Bool
  | none => false
  | some s => !s.isEmpty

def digitVal (c : Char) : Nat := c.toNat - '0'.toNat

/-- Digits with single underscores between them (tail after the first
digit), accumulating the value. -/
def digitsValGo : List Char → Nat → Option Nat
  | [], acc => some acc
  | '_' :: c :: cs, acc =>
    if c.isDigit then digitsValGo cs (acc * 10 + digitVal c) else none
  | c :: cs, acc =>
    if c.isDigit then digitsValGo cs (acc * 10 + digitVal c) else none

def digitsVal : List Char → Option Nat
  | [] => none
  | c :: cs => if c.isDigit then digitsValGo cs (digitVal c) else none

/-- Python's `int(s)`: `some` value on success, `none` when `int` raises.
Surrounding whitespace and an optional sign are allowed, and single
underscores may separate digits. -/
def pyIntVal (s : List Char) : Option Int :=
  match stripPy s with
  | [] => none
  | '+' :: rest => (digitsVal rest).map (fun n => (n : Int))
  | '-' :: rest => (digitsVal rest).map (fun n => -(n : Int))
  | rest => (digitsVal rest).map (fun n => (n : Int))

/-- Whether Python's `int(s)` succeeds. -/
def pyIntValid (s : List Char) : Bool := (pyIntVal s).isSome

example : pyIntVal ("-1_2".data) = some (-12) := by decide
example : pyIntVal (" 720 ".data) = some 720 := by decide

example : pyIntValid (" 12345 ".data) = true := by decide
example : pyIntValid ("-1_2".data) = true := by decide
example : pyIntValid ("".data) = false := by decide
example : pyIntValid ("12a".data) = false := by decide

/-- `send_audio_with_pyrogram`: returns `False` before any client is created
when `API_ID`/`API_HASH` is missing or empty, or when `int(API_ID)` raises;
otherwise the upload is attempted and its outcome returned. -/
def send_audio_with_pyrogram (cfg : PyroCfg) (uploadOk : Bool) : Bool × Bool :=
  if !pyTruthy cfg.api_id || !pyTruthy cfg.api_hash then (false, false)
  else if !pyIntValid (cfg.api_id.getD []) then (false, false)
  else (uploadOk, true)

/-- `send_video_with_pyrogram`: same gate; an `int(API_ID)` failure is caught
by the generic `except` and also yields `False` with no upload. -/
def send_video_with_pyrogram (cfg : PyroCfg) (uploadOk : Bool) : Bool × Bool :=
  if !pyTruthy cfg.api_id || !pyTruthy cfg.api_hash then (false, false)
  else if !pyIntValid (cfg.api_id.getD []) then (false, false)
  else (uploadOk, true)

/-- C4: the secondary transport is credential-gated: both senders return
`False` without attempting any upload when `API_ID` or `API_HASH` is unset,
and `send_audio_with_pyrogram` also returns `False` without attempting an
upload when `API_ID` does not parse as an integer. -/
theorem claim_C4_credential_gate (cfg : PyroCfg) (u1 u2 : Bool) :
    ((cfg.api_id = none ∨ cfg.api_hash = none) →
       send_audio_with_pyrogram cfg u1 = (false, false) ∧
       send_video_with_pyrogram cfg u2 = (false, false)) ∧
    (pyIntValid (cfg.api_id.getD []) = false →
       send_audio_with_pyrogram cfg u1 = (false, false)) := by
  constructor
  · rintro (h | h) <;>
      simp [send_audio_with_pyrogram, send_video_with_pyrogram, pyTruthy, h]
  · intro h
    by_cases hg : (!pyTruthy cfg.api_id || !pyTruthy cfg.api_hash) = true <;>
      simp [send_audio_with_pyrogram, hg, h]

/-- C4 witness: unset `API_ID` blocks both senders; a non-numeric `API_ID`
blocks the audio sender. -/
theorem claim_C4_credential_gate_witness :
    send_audio_with_pyrogram ⟨none, some ("h".data)⟩ true = (false, false) ∧
    send_video_with_pyrogram ⟨none, some ("h".data)⟩ true = (false, false) ∧
    send_audio_with_pyrogram ⟨some ("abc".data), some ("h".data)⟩ true = (false, false) :=
  ⟨((claim_C4_credential_gate ⟨none, some ("h".data)⟩ true true).1 (Or.inl rfl)).1,
   ((claim_C4_credential_gate ⟨none, some ("h".data)⟩ true true).1 (Or.inl rfl)).2,
   (claim_C4_credential_gate ⟨some ("abc".data), some ("h".data)⟩ true true).2 (by decide)⟩

/-! ## `YOUTUBE_URL_REGEX` and `handle_message` (bot.py lines 40-43, 606-648)

The pattern
`(?:https?:\/\/)?(?:www\.)?(?:youtube\.com\/(?:watch\?v=|shorts\/)|youtu\.be\/)([\w\-]+)`
is embedded directly: optional scheme, optional `www.`, one of three host
alternatives, then a greedy nonempty run of word characters or hyphens as
capture group 1.  At any text position the alternatives of each group are
mutually exclusive prefixes, so committing greedily coincides with regex
backtracking, and `re.search` semantics is the match at the leftmost position
admitting one.  `\w` is modelled over the ASCII range. -/

def isUrlWordChar (c : Char) : Bool := c.isAlphanum || c == '_' || c == '-'

def httpsStr : List Char := "https://".data
def httpStr : List Char := "http://".data
def wwwStr : List Char := "www.".data
def hostWatch : List Char := "youtube.com/watch?v=".data
def hostShorts : List Char := "youtube.com/shorts/".data
def hostBe : List Char := "youtu.be/".data

/-- Greedy optional literal: consume `pat` if present. -/
def matchOptPart (pat : List Char) (cs : List Char) : List Char × List Char :=
  if pat.isPrefixOf cs then (pat, cs.drop pat.length) else ([], cs)

/-- `(?:https?:\/\/)?`. -/
def matchScheme (cs : List Char) : List Char × List Char :=
  if httpsStr.isPrefixOf cs then (httpsStr, cs.drop httpsStr.length)
  else if httpStr.isPrefixOf cs then (httpStr, cs.drop httpStr.length)
  else ([], cs)

/-- `(?:youtube\.com\/(?:watch\?v=|shorts\/)|youtu\.be\/)`. -/
def matchHost (cs : List Char) : Option (List Char × List Char) :=
  if hostWatch.isPrefixOf cs then some (hostWatch, cs.drop hostWatch.length)
  else if hostShorts.isPrefixOf cs then some (hostShorts, cs.drop hostShorts.length)
  else if hostBe.isPrefixOf cs then some (hostBe, cs.drop hostBe.length)
  else none

/-- The pattern anchored at the start of `cs`: `(group(0), group(1))`. -/
def matchYouTubeAt (cs : List Char) : Option (List Char × List Char) :=
  let (s1, r1) := matchScheme cs
  let (s2, r2) := matchOptPart wwwStr r1
  match matchHost r2 with
  | none => none
  | some (h, r3) =>
    let vid := r3.takeWhile isUrlWordChar
    if vid.isEmpty then none
    else some (s1 ++ s2 ++ h ++ vid, vid)

/-- `re.search(YOUTUBE_URL_REGEX, text)`: try each start position from the
left. -/
def reSearchYouTube : List Char → Option (List Char × List Char)
  | [] => none
  | c :: cs =>
    match matchYouTubeAt (c :: cs) with
    | some r => some r
    | none => reSearchYouTube cs

example :
    reSearchYouTube ("see https://www.youtube.com/watch?v=dQw4w9WgXcQ now".data) =
      some ("https://www.youtube.com/watch?v=dQw4w9WgXcQ".data, "dQw4w9WgXcQ".data) := by
  decide

example :
    reSearchYouTube ("youtu.be/a-b_c rest".data) =
      some ("youtu.be/a-b_c".data, "a-b_c".data) := by decide

example : reSearchYouTube ("hello world".data) = none := by decide

/-- `pending_video_urls`, a dict from video id to URL. -/
def PendingMap : Type := List Char → Option (List Char)

def mapInsert (m : PendingMap) (k v : List Char) : PendingMap :=
  fun x => if x = k then some v else m x

def mapErase (m : PendingMap) (k : List Char) : PendingMap :=
  fun x => if x = k then none else m x

/-- The reply `handle_message` sends. -/
inductive Reply where
  | formatKeyboard (video_id : List Char)
  | pleaseSendLink
deriving DecidableEq, Repr

/-- `handle_message`: empty text returns silently (`if not message_text`);
a regex match stores `group(1) -> group(0)` in `pending_video_urls` and
replies with the format-selection keyboard; otherwise the
"Please send a YouTube video link" reply is sent and the dict is untouched. -/
def handle_message (pending : PendingMap) (text : List Char) :
    PendingMap × Option Reply :=
  if text.isEmpty then (pending, none)
  else
    match reSearchYouTube text with
    | some (url, vid) => (mapInsert pending vid url, some (.formatKeyboard vid))
    | none => (pending, some .pleaseSendLink)

/-- C6: for every nonempty incoming text, a first (leftmost) match of the
YouTube pattern puts the extracted identifier-to-URL entry into
`pending_video_urls` and replies with the format-selection keyboard, while a
text with no match leaves the mapping unchanged and gets the
"Please send a YouTube video link" reply. -/
theorem claim_C6_handle_message (pending : PendingMap) (text : List Char)
    (hne : text ≠ []) :
    (∀ url vid, reSearchYouTube text = some (url, vid) →
       (handle_message pending text).1 vid = some url ∧
       (∀ k, k ≠ vid → (handle_message pending text).1 k = pending k) ∧
       (handle_message pending text).2 = some (Reply.formatKeyboard vid)) ∧
    (reSearchYouTube text = none →
       (handle_message pending text).1 = pending ∧
       (handle_message pending text).2 = some Reply.pleaseSendLink) := by
  have hfalse : text.isEmpty = false := by
    cases text with
    | nil => exact absurd rfl hne
    | cons c cs => rfl
  constructor
  · intro url vid h
    refine ⟨?_, ?_, ?_⟩
    · simp [handle_message, hfalse, h, mapInsert]
    · intro k hk
      simp [handle_message, hfalse, h, mapInsert, hk]
    · simp [handle_message, hfalse, h]
  · intro h
    constructor
    · simp [handle_message, hfalse, h]
    · simp [handle_message, hfalse, h]

/-- C6 witness: a concrete message containing a watch URL. -/
theorem claim_C6_handle_message_witness :
    (handle_message (fun _ => none)
        ("see https://www.youtube.com/watch?v=dQw4w9WgXcQ now".data)).1
        ("dQw4w9WgXcQ".data) =
      some ("https://www.youtube.com/watch?v=dQw4w9WgXcQ".data) ∧
    (handle_message (fun _ => none)
        ("see https://www.youtube.com/watch?v=dQw4w9WgXcQ now".data)).2 =
      some (Reply.formatKeyboard ("dQw4w9WgXcQ".data)) :=
  ⟨(((claim_C6_handle_message (fun _ => none)
      ("see https://www.youtube.com/watch?v=dQw4w9WgXcQ now".data) (by decide)).1
      ("https://www.youtube.com/watch?v=dQw4w9WgXcQ".data) ("dQw4w9WgXcQ".data)
      (by decide))).1,
   (((claim_C6_handle_message (fun _ => none)
      ("see https://www.youtube.com/watch?v=dQw4w9WgXcQ now".data) (by decide)).1
      ("https://www.youtube.com/watch?v=dQw4w9WgXcQ".data) ("dQw4w9WgXcQ".data)
      (by decide))).2.2⟩

/-! ## `pyrogram_upload_progress` (bot.py lines 473-510, 45-47)

`progress_message_last_edit_time` maps `(chat_id, message_id)` to the event
loop time of the last successful edit; times are modelled as rationals.  A
call attempts an edit only when `now - last > 1.0` (with `last` defaulting to
`0`), and records `now` only after the edit succeeds. -/

def EditTimes : Type := Int × Int → Option ℚ

structure ProgressStep where
  state : EditTimes
  attempted : Bool
  edited : Bool

/-- One invocation of `pyrogram_upload_progress` for key
`(chat_id, message_id)` at time `now`; `editOk` tells whether
`edit_message_text` succeeds. -/
def pyrogram_upload_progress (st : EditTimes) (key : Int × Int) (now : ℚ)
    (editOk : Bool) : ProgressStep :=
  let last := (st key).getD 0
  if now - last > 1 then
    if editOk then
      { state := fun k => if k = key then some now else st k,
        attempted := true, edited := true }
    else
      { state := st, attempted := true, edited := false }
  else
    { state := st, attempted := false, edited := false }

/-- A sequence of progress callbacks for one key; returns the final state and
the times of the successful edits, in order. -/
def runProgress (st : EditTimes) (key : Int × Int) :
    List (ℚ × Bool) → EditTimes × List ℚ
  | [] => (st, [])
  | (now, ok) :: rest =>
    let step := pyrogram_upload_progress st key now ok
    let (stf, ts) := runProgress step.state key rest
    (stf, (if step.edited then [now] else []) ++ ts)

/-- Successive successful edits are more than one second apart, and each is
more than one second after the last time recorded in the incoming state. -/
theorem runProgress_edits_spaced (key : Int × Int) :
    ∀ (calls : List (ℚ × Bool)) (st : EditTimes),
      List.Chain' (fun a b => a + 1 < b) (runProgress st key calls).2 ∧
      ∀ t, ((runProgress st key calls).2).head? = some t →
        ((st key).getD 0) + 1 < t := by
  intro calls
  induction calls with
  | nil => intro st; simp [runProgress]
  | cons c rest ih =>
    intro st
    obtain ⟨now, ok⟩ := c
    by_cases hgt : now - (st key).getD 0 > 1
    · by_cases hok : ok = true
      · have hstep : pyrogram_upload_progress st key now ok =
            { state := fun k => if k = key then some now else st k,
              attempted := true, edited := true } := by
          rw [pyrogram_upload_progress, if_pos hgt, if_pos hok]
        obtain ⟨ihc, ihh⟩ := ih (fun k => if k = key then some now else st k)
        have hout : (runProgress st key ((now, ok) :: rest)).2 =
            now :: (runProgress (fun k => if k = key then some now else st k) key rest).2 := by
          simp [runProgress, hstep]
        constructor
        · rw [hout, List.chain'_cons']
          refine ⟨?_, ihc⟩
          intro y hy
          have h6 := ihh y hy
          simpa using h6
        · intro t ht
          rw [hout] at ht
          simp only [List.head?_cons, Option.some.injEq] at ht
          subst ht
          linarith
      · have hok' : ok = false := by simpa using hok
        subst hok'
        have hstep : pyrogram_upload_progress st key now false =
            { state := st, attempted := true, edited := false } := by
          rw [pyrogram_upload_progress, if_pos hgt]
          rfl
        obtain ⟨ihc, ihh⟩ := ih st
        exact ⟨by simpa [runProgress, hstep] using ihc,
          by simpa [runProgress, hstep] using ihh⟩
    · have hstep : pyrogram_upload_progress st key now ok =
          { state := st, attempted := false, edited := false } := by
        rw [pyrogram_upload_progress, if_neg hgt]
      obtain ⟨ihc, ihh⟩ := ih st
      exact ⟨by simpa [runProgress, hstep] using ihc,
        by simpa [runProgress, hstep] using ihh⟩

/-- C7: `pyrogram_upload_progress` attempts an edit exactly when strictly
more than 1.0 second has elapsed since the recorded last edit time (default
0), records `now` only on a successful edit and leaves the state unchanged
otherwise, and consequently the successful edits of a callback sequence are
pairwise more than one second apart. -/
theorem claim_C7_progress_throttle (st : EditTimes) (key : Int × Int)
    (now : ℚ) (editOk : Bool) :
    ((pyrogram_upload_progress st key now editOk).attempted = true ↔
      now - ((st key).getD 0) > 1) ∧
    ((pyrogram_upload_progress st key now editOk).edited = true →
      (pyrogram_upload_progress st key now editOk).state key = some now) ∧
    ((pyrogram_upload_progress st key now editOk).edited = false →
      (pyrogram_upload_progress st key now editOk).state = st) ∧
    (∀ calls : List (ℚ × Bool),
      List.Chain' (fun a b => a + 1 < b) (runProgress st key calls).2) := by
  refine ⟨?_, ?_, ?_, fun calls => (runProgress_edits_spaced key calls st).1⟩
  · rw [pyrogram_upload_progress]
    by_cases hgt : now - (st key).getD 0 > 1
    · rw [if_pos hgt]
      cases editOk <;> simpa using hgt
    · rw [if_neg hgt]
      simpa using hgt
  · rw [pyrogram_upload_progress]
    by_cases hgt : now - (st key).getD 0 > 1
    · rw [if_pos hgt]
      cases editOk <;> simp
    · rw [if_neg hgt]
      simp
  · rw [pyrogram_upload_progress]
    by_cases hgt : now - (st key).getD 0 > 1
    · rw [if_pos hgt]
      cases editOk <;> simp
    · rw [if_neg hgt]
      simp

/-! ## `button_callback_handler` (bot.py lines 246-470)

Callback data is a string such as `download_audio:<id>` or
`quality:<id>:<height>`; the handler dispatches on `startswith`, extracts the
pieces with `split(":")`, and consults/updates `pending_video_urls`.  A
`ValueError` from `int(parts[2])` (or a missing index) lands in the outer
`except`, which sends the generic error message; this is `errorOccurred`.
The outcome abstracts the messages/keyboards sent and which download was
started. -/

/-- Python's `split(":")`. -/
def splitOnColon : List Char → List (List Char)
  | [] => [[]]
  | c :: cs =>
    if c = ':' then [] :: splitOnColon cs
    else
      match splitOnColon cs with
      | [] => [[c]]
      | p :: ps => (c :: p) :: ps

example : splitOnColon ("download_audio:abc".data) =
    ["download_audio".data, "abc".data] := by decide

theorem splitOnColon_ne_nil : ∀ cs : List Char, splitOnColon cs ≠ [] := by
  intro cs
  induction cs with
  | nil => simp [splitOnColon]
  | cons c cs ih =>
    rw [splitOnColon]
    by_cases h : c = ':'
    · simp [h]
    · rw [if_neg h]
      cases hsp : splitOnColon cs with
      | nil => simp
      | cons p ps => simp

theorem splitOnColon_append (w rest : List Char) (hw : ∀ c ∈ w, c ≠ ':') :
    splitOnColon (w ++ ':' :: rest) = w :: splitOnColon rest := by
  induction w with
  | nil => simp [splitOnColon]
  | cons c w ih =>
    have hc : c ≠ ':' := hw c (by simp)
    have ih' := ih fun x hx => hw x (List.mem_cons_of_mem _ hx)
    rw [List.cons_append, splitOnColon, if_neg hc, ih']

theorem splitOnColon_of_no_colon (v : List Char) (hv : ∀ c ∈ v, c ≠ ':') :
    splitOnColon v = [v] := by
  induction v with
  | nil => simp [splitOnColon]
  | cons c v ih =>
    have hc : c ≠ ':' := hv c (by simp)
    have ih' := ih fun x hx => hv x (List.mem_cons_of_mem _ hx)
    rw [splitOnColon, if_neg hc, ih']

/-- Summary of a `button_callback_handler` invocation. -/
inductive CbAction where
  | instructionsShown
  | sessionExpired
  | audioDownloadRun (video_id url : List Char)
  | qualitySelectionShown (video_id : List Char)
  | videoDownloadRun (video_id url : List Char) (height : Int)
  | formatShown (video_id : List Char)
  | startMenuShown
  | unknownData
  | errorOccurred
deriving DecidableEq, Repr

/-- `button_callback_handler` as a function of `pending_video_urls` and
`query.data`, returning the updated mapping and the outcome. -/
def button_callback_handler (pending : PendingMap) (data : List Char) :
    PendingMap × CbAction :=
  if data = ("show_link_instructions".data) then (pending, .instructionsShown)
  else if ("download_audio:".data).isPrefixOf data then
    let video_id := (splitOnColon data).getD 1 []
    match pending video_id with
    | none => (pending, .sessionExpired)
    | some url => (mapErase pending video_id, .audioDownloadRun video_id url)
  else if ("download_video:".data).isPrefixOf data then
    let video_id := (splitOnColon data).getD 1 []
    match pending video_id with
    | none => (pending, .sessionExpired)
    | some _ => (pending, .qualitySelectionShown video_id)
  else if ("quality:".data).isPrefixOf data then
    let parts := splitOnColon data
    let video_id := parts.getD 1 []
    match pyIntVal (parts.getD 2 []) with
    | none => (pending, .errorOccurred)
    | some height =>
      match pending video_id with
      | none => (pending, .sessionExpired)
      | some url => (mapErase pending video_id, .videoDownloadRun video_id url height)
  else if ("back_to_format:".data).isPrefixOf data then
    let video_id := (splitOnColon data).getD 1 []
    if (pending video_id).isSome then (pending, .formatShown video_id)
    else (pending, .sessionExpired)
  else if ("cancel:".data).isPrefixOf data then
    let video_id := (splitOnColon data).getD 1 []
    (mapErase pending video_id, .startMenuShown)
  else (pending, .unknownData)

/-- `l` is a prefix of `l ++ t` (boolean version). -/
theorem isPrefixOf_append_self : ∀ l t : List Char, l.isPrefixOf (l ++ t) = true := by
  intro l t
  induction l with
  | nil => simp
  | cons c cs ih => simp [List.isPrefixOf_cons₂, ih]

/-- When neither of two lists is a boolean prefix of the other, appending to
the second cannot make the first a prefix. -/
theorem isPrefixOf_append_false : ∀ (p q t : List Char),
    p.isPrefixOf q = false → q.isPrefixOf p = false →
    p.isPrefixOf (q ++ t) = false := by
  intro p
  induction p with
  | nil => intro q t h1 _; simp at h1
  | cons a p ih =>
    intro q t h1 h2
    cases q with
    | nil => simp at h2
    | cons b q =>
      by_cases hab : (a == b) = true
      · have hba : (b == a) = true := by
          have : a = b := by simpa using hab
          simp [this]
        rw [List.isPrefixOf_cons₂, hab, Bool.true_and] at h1
        rw [List.isPrefixOf_cons₂, hba, Bool.true_and] at h2
        rw [List.cons_append, List.isPrefixOf_cons₂, hab, Bool.true_and]
        exact ih q t h1 h2
      · have hab' : (a == b) = false := by simpa using hab
        rw [List.cons_append, List.isPrefixOf_cons₂, hab', Bool.false_and]

/-- C8: the identifier-to-URL mapping is short-lived: a completed audio
download, a completed quality-selected video download, and a cancel press all
remove the identifier from `pending_video_urls`, and a later
`download_audio`, `download_video` or `quality` callback for an identifier
absent from the mapping yields the session-expired outcome with the mapping
untouched and no download started. -/
theorem claim_C8_session_lifecycle (pending : PendingMap)
    (vid url hstr : List Char) (h : Int)
    (hvid : ∀ c ∈ vid, c ≠ ':') (hhstr : ∀ c ∈ hstr, c ≠ ':') :
    (pending vid = some url →
      (button_callback_handler pending ("download_audio:".data ++ vid)).1 vid = none ∧
      (button_callback_handler pending ("download_audio:".data ++ vid)).2 =
        CbAction.audioDownloadRun vid url) ∧
    (pending vid = some url → pyIntVal hstr = some h →
      (button_callback_handler pending
          ("quality:".data ++ (vid ++ ':' :: hstr))).1 vid = none ∧
      (button_callback_handler pending
          ("quality:".data ++ (vid ++ ':' :: hstr))).2 =
        CbAction.videoDownloadRun vid url h) ∧
    ((button_callback_handler pending ("cancel:".data ++ vid)).1 vid = none ∧
      (button_callback_handler pending ("cancel:".data ++ vid)).2 =
        CbAction.startMenuShown) ∧
    (pending vid = none →
      button_callback_handler pending ("download_audio:".data ++ vid) =
        (pending, CbAction.sessionExpired) ∧
      button_callback_handler pending ("download_video:".data ++ vid) =
        (pending, CbAction.sessionExpired) ∧
      (pyIntVal hstr = some h →
        button_callback_handler pending ("quality:".data ++ (vid ++ ':' :: hstr)) =
          (pending, CbAction.sessionExpired))) := by
  have haudio : splitOnColon ("download_audio:".data ++ vid) =
      ["download_audio".data, vid] := by
    rw [show ("download_audio:".data ++ vid) =
      "download_audio".data ++ ':' :: vid from rfl]
    rw [splitOnColon_append _ _ (by decide), splitOnColon_of_no_colon _ hvid]
  have hvideo : splitOnColon ("download_video:".data ++ vid) =
      ["download_video".data, vid] := by
    rw [show ("download_video:".data ++ vid) =
      "download_video".data ++ ':' :: vid from rfl]
    rw [splitOnColon_append _ _ (by decide), splitOnColon_of_no_colon _ hvid]
  have hqual : splitOnColon ("quality:".data ++ (vid ++ ':' :: hstr)) =
      ["quality".data, vid, hstr] := by
    rw [show ("quality:".data ++ (vid ++ ':' :: hstr)) =
      "quality".data ++ ':' :: (vid ++ ':' :: hstr) from rfl]
    rw [splitOnColon_append _ _ (by decide), splitOnColon_append _ _ hvid,
      splitOnColon_of_no_colon _ hhstr]
  have hcancel : splitOnColon ("cancel:".data ++ vid) = ["cancel".data, vid] := by
    rw [show ("cancel:".data ++ vid) = "cancel".data ++ ':' :: vid from rfl]
    rw [splitOnColon_append _ _ (by decide), splitOnColon_of_no_colon _ hvid]
  have hne_audio : ¬ ("download_audio:".data ++ vid) =
      "show_link_instructions".data := by
    intro hcontra
    have h2 := congrArg List.head? hcontra
    rw [show List.head? ("download_audio:".data ++ vid) = some 'd' from rfl] at h2
    exact absurd h2 (by decide)
  have hne_video : ¬ ("download_video:".data ++ vid) =
      "show_link_instructions".data := by
    intro hcontra
    have h2 := congrArg List.head? hcontra
    rw [show List.head? ("download_video:".data ++ vid) = some 'd' from rfl] at h2
    exact absurd h2 (by decide)
  have hne_qual : ¬ ("quality:".data ++ (vid ++ ':' :: hstr)) =
      "show_link_instructions".data := by
    intro hcontra
    have h2 := congrArg List.head? hcontra
    rw [show List.head? ("quality:".data ++ (vid ++ ':' :: hstr)) =
      some 'q' from rfl] at h2
    exact absurd h2 (by decide)
  have hne_cancel : ¬ ("cancel:".data ++ vid) = "show_link_instructions".data := by
    intro hcontra
    have h2 := congrArg List.head? hcontra
    rw [show List.head? ("cancel:".data ++ vid) = some 'c' from rfl] at h2
    exact absurd h2 (by decide)
  have gaud_aud : ("download_audio:".data).isPrefixOf
      ("download_audio:".data ++ vid) = true := isPrefixOf_append_self _ _
  have gvid_vid : ("download_video:".data).isPrefixOf
      ("download_video:".data ++ vid) = true := isPrefixOf_append_self _ _
  have gq_q : ("quality:".data).isPrefixOf
      ("quality:".data ++ (vid ++ ':' :: hstr)) = true := isPrefixOf_append_self _ _
  have gc_c : ("cancel:".data).isPrefixOf ("cancel:".data ++ vid) = true :=
    isPrefixOf_append_self _ _
  have gaud_vid : ("download_audio:".data).isPrefixOf
      ("download_video:".data ++ vid) = false :=
    isPrefixOf_append_false _ _ _ (by decide) (by decide)
  have gaud_q : ("download_audio:".data).isPrefixOf
      ("quality:".data ++ (vid ++ ':' :: hstr)) = false :=
    isPrefixOf_append_false _ _ _ (by decide) (by decide)
  have gvid_q : ("download_video:".data).isPrefixOf
      ("quality:".data ++ (vid ++ ':' :: hstr)) = false :=
    isPrefixOf_append_false _ _ _ (by decide) (by decide)
  have gaud_c : ("download_audio:".data).isPrefixOf
      ("cancel:".data ++ vid) = false :=
    isPrefixOf_append_false _ _ _ (by decide) (by decide)
  have gvid_c : ("download_video:".data).isPrefixOf
      ("cancel:".data ++ vid) = false :=
    isPrefixOf_append_false _ _ _ (by decide) (by decide)
  have gq_c : ("quality:".data).isPrefixOf ("cancel:".data ++ vid) = false :=
    isPrefixOf_append_false _ _ _ (by decide) (by decide)
  have gb_c : ("back_to_format:".data).isPrefixOf ("cancel:".data ++ vid) = false :=
    isPrefixOf_append_false _ _ _ (by decide) (by decide)
  refine ⟨?_, ?_, ?_, ?_⟩
  · intro hp
    rw [button_callback_handler, if_neg hne_audio, if_pos gaud_aud, haudio]
    simp [hp, mapErase]
  · intro hp hint
    rw [button_callback_handler, if_neg hne_qual, if_neg (by simp [gaud_q]),
      if_neg (by simp [gvid_q]), if_pos gq_q, hqual]
    simp [hp, hint, mapErase]
  · rw [button_callback_handler, if_neg hne_cancel, if_neg (by simp [gaud_c]),
      if_neg (by simp [gvid_c]), if_neg (by simp [gq_c]),
      if_neg (by simp [gb_c]), if_pos gc_c, hcancel]
    simp [mapErase]
  · intro hp
    refine ⟨?_, ?_, ?_⟩
    · rw [button_callback_handler, if_neg hne_audio, if_pos gaud_aud, haudio]
      simp [hp]
    · rw [button_callback_handler, if_neg hne_video, if_neg (by simp [gaud_vid]),
        if_pos gvid_vid, hvideo]
      simp [hp]
    · intro hint
      rw [button_callback_handler, if_neg hne_qual, if_neg (by simp [gaud_q]),
        if_neg (by simp [gvid_q]), if_pos gq_q, hqual]
      simp [hp, hint]

/-- C8 witness: concrete session lifecycle checks. -/
theorem claim_C8_session_lifecycle_witness :
    (button_callback_handler
        (fun k => if k = ("abc".data) then some ("youtu.be/abc".data) else none)
        ("download_audio:abc".data)).1 ("abc".data) = none ∧
    (button_callback_handler
        (fun k => if k = ("abc".data) then some ("youtu.be/abc".data) else none)
        ("download_audio:abc".data)).2 =
      CbAction.audioDownloadRun ("abc".data) ("youtu.be/abc".data) ∧
    button_callback_handler (fun _ => none) ("quality:abc:720".data) =
      ((fun _ => none : PendingMap), CbAction.sessionExpired) := by
  have hmain := claim_C8_session_lifecycle
    (fun k => if k = ("abc".data) then some ("youtu.be/abc".data) else none)
    ("abc".data) ("youtu.be/abc".data) ("720".data) 720
    (by decide) (by decide)
  have habs := claim_C8_session_lifecycle (fun _ => none)
    ("abc".data) ("youtu.be/abc".data) ("720".data) 720
    (by decide) (by decide)
  refine ⟨?_, ?_, ?_⟩
  · exact (hmain.1 (by simp)).1
  · exact (hmain.1 (by simp)).2
  · exact (habs.2.2.2 rfl).2.2 (by decide)

/-! ## `get_available_qualities` (bot.py lines 88-187)

Each extractor attempt either raises / yields no info (`none`) or yields a
format list.  A format contributes when its `vcodec` is not `"none"` and its
`height` is truthy.  Heights are bucketed by `get_quality_label`, labels are
deduplicated keeping the first (highest) representative, and the result is
sorted by height descending; an attempt with an empty result falls through
to the next, and when every attempt fails a fixed default list of four
qualities is returned. -/

structure Fmt where
  vcodec : Option (List Char)
  height : Option Int

/-- `f.get("vcodec") != "none" and f.get("height")`. -/
def isVideoFmt (f : Fmt) : Bool :=
  (f.vcodec != some ("none".data)) &&
    (match f.height with
     | some h => h != 0
     | none => false)

/-- `get_quality_label` from bot.py, as written (including the redundant
`height >= 2000 or height >= 1500` test). -/
def get_quality_label (height : Int) : Int × List Char :=
  if height ≥ 1400 then
    if height ≥ 2000 ∨ height ≥ 1500 then (2160, "2160p 4K".data)
    else (1440, "1440p 2K".data)
  else if height ≥ 700 then
    if height ≥ 800 then (1080, "1080p HD".data) else (720, "720p HD".data)
  else if height ≥ 350 then (480, "480p".data)
  else if height ≥ 250 then (360, "360p".data)
  else if height ≥ 170 then (240, "240p".data)
  else (144, "144p".data)

structure Quality where
  height : Int
  label : List Char
deriving DecidableEq, Repr

/-- The `seen_labels` dedup loop, keeping the first occurrence per label. -/
def dedupeLabels : List (Int × List Char) → List (List Char) → List Quality
  | [], _ => []
  | (h, l) :: rest, seen =>
    if l ∈ seen then dedupeLabels rest seen
    else ⟨h, l⟩ :: dedupeLabels rest (l :: seen)

/-- One attempt's processing of its format list. -/
def qualitiesFromFormats (formats : List Fmt) : List Quality :=
  let video_formats := formats.filter isVideoFmt
  let sorted := video_formats.mergeSort (fun a b => b.height.getD 0 ≤ a.height.getD 0)
  let labeled := sorted.map fun f => get_quality_label (f.height.getD 0)
  (dedupeLabels labeled []).mergeSort (fun a b => b.height ≤ a.height)

def defaultQualities : List Quality :=
  [⟨1080, "1080p HD".data⟩, ⟨720, "720p HD".data⟩,
   ⟨480, "480p".data⟩, ⟨360, "360p".data⟩]

/-- `get_available_qualities` over the list of attempt outcomes. -/
def get_available_qualities : List (Option (List Fmt)) → List Quality
  | [] => defaultQualities
  | a :: rest =>
    match a with
    | none => get_available_qualities rest
    | some formats =>
      let q := qualitiesFromFormats formats
      if q.isEmpty then get_available_qualities rest else q

/-- The eight possible `(height, label)` outputs of `get_quality_label`. -/
def qualityLabelRange : List (Int × List Char) :=
  [(2160, "2160p 4K".data), (1440, "1440p 2K".data), (1080, "1080p HD".data),
   (720, "720p HD".data), (480, "480p".data), (360, "360p".data),
   (240, "240p".data), (144, "144p".data)]

theorem get_quality_label_mem (h : Int) :
    get_quality_label h ∈ qualityLabelRange := by
  rw [get_quality_label]
  split_ifs <;> simp [qualityLabelRange]

theorem dedupeLabels_sub : ∀ (l : List (Int × List Char)) (seen : List (List Char)),
    ∀ q ∈ dedupeLabels l seen, (q.height, q.label) ∈ l := by
  intro l
  induction l with
  | nil => intro seen q hq; simp [dedupeLabels] at hq
  | cons hd rest ih =>
    intro seen q hq
    obtain ⟨h, lab⟩ := hd
    rw [dedupeLabels] at hq
    by_cases hseen : lab ∈ seen
    · rw [if_pos hseen] at hq
      exact List.mem_cons_of_mem _ (ih seen q hq)
    · rw [if_neg hseen] at hq
      rcases List.mem_cons.mp hq with rfl | hq
      · simp
      · exact List.mem_cons_of_mem _ (ih (lab :: seen) q hq)

theorem dedupeLabels_nodup : ∀ (l : List (Int × List Char)) (seen : List (List Char)),
    ((dedupeLabels l seen).map Quality.label).Nodup ∧
    ∀ q ∈ dedupeLabels l seen, q.label ∉ seen := by
  intro l
  induction l with
  | nil => intro seen; simp [dedupeLabels]
  | cons hd rest ih =>
    intro seen
    obtain ⟨h, lab⟩ := hd
    rw [dedupeLabels]
    by_cases hseen : lab ∈ seen
    · rw [if_pos hseen]
      exact ih seen
    · rw [if_neg hseen]
      obtain ⟨ihn, ihs⟩ := ih (lab :: seen)
      refine ⟨?_, ?_⟩
      · rw [List.map_cons, List.nodup_cons]
        refine ⟨?_, ihn⟩
        intro hmem
        rcases List.mem_map.mp hmem with ⟨q, hq, hlab⟩
        exact ihs q hq (by rw [hlab]; simp)
      · intro q hq
        rcases List.mem_cons.mp hq with rfl | hq
        · exact hseen
        · intro hcontra
          exact ihs q hq (List.mem_cons_of_mem _ hcontra)

/-- In the range of `get_quality_label`, the height determines the label. -/
theorem qualityLabelRange_height_inj :
    ∀ p ∈ qualityLabelRange, ∀ q ∈ qualityLabelRange,
      p.1 = q.1 → p.2 = q.2 := by decide

theorem dedupe_sort_spec (labeled : List (Int × List Char))
    (hrange : ∀ x ∈ labeled, x ∈ qualityLabelRange) :
    (((dedupeLabels labeled []).mergeSort
        (fun a b => b.height ≤ a.height)).map Quality.label).Nodup ∧
    List.Pairwise (fun a b : Quality => b.height < a.height)
      ((dedupeLabels labeled []).mergeSort (fun a b => b.height ≤ a.height)) ∧
    ∀ q ∈ (dedupeLabels labeled []).mergeSort (fun a b => b.height ≤ a.height),
      (q.height, q.label) ∈ qualityLabelRange := by
  have hperm : List.Perm ((dedupeLabels labeled []).mergeSort
      (fun a b => b.height ≤ a.height)) (dedupeLabels labeled []) :=
    List.mergeSort_perm _ _
  have hmem : ∀ q ∈ (dedupeLabels labeled []).mergeSort
      (fun a b => b.height ≤ a.height), (q.height, q.label) ∈ qualityLabelRange := by
    intro q hq
    exact hrange _ (dedupeLabels_sub labeled [] q (hperm.mem_iff.mp hq))
  have hnodup : (((dedupeLabels labeled []).mergeSort
      (fun a b => b.height ≤ a.height)).map Quality.label).Nodup :=
    ((hperm.map Quality.label).nodup_iff).mpr (dedupeLabels_nodup labeled []).1
  refine ⟨hnodup, ?_, hmem⟩
  have hsorted : List.Pairwise (fun a b : Quality => b.height ≤ a.height)
      ((dedupeLabels labeled []).mergeSort (fun a b => b.height ≤ a.height)) := by
    have h1 := @List.sorted_mergeSort Quality
      (fun a b : Quality => decide (b.height ≤ a.height))
      (by intro a b c h1 h2; simp at h1 h2 ⊢; omega)
      (by intro a b; simpa using le_total b.height a.height)
      (dedupeLabels labeled [])
    exact h1.imp (by intro a b hab; simpa using hab)
  have hlabne : List.Pairwise (fun a b : Quality => a.label ≠ b.label)
      ((dedupeLabels labeled []).mergeSort (fun a b => b.height ≤ a.height)) :=
    List.pairwise_map.mp hnodup
  refine (hsorted.and hlabne).imp_of_mem ?_
  intro a b ha hb hab
  obtain ⟨hle, hlab⟩ := hab
  rcases eq_or_lt_of_le hle with heq | hlt
  · have h3 := qualityLabelRange_height_inj (b.height, b.label) (hmem b hb)
      (a.height, a.label) (hmem a ha) heq
    exact absurd h3.symm hlab
  · exact hlt

theorem qualitiesFromFormats_spec (formats : List Fmt) :
    ((qualitiesFromFormats formats).map Quality.label).Nodup ∧
    List.Pairwise (fun a b : Quality => b.height < a.height)
      (qualitiesFromFormats formats) ∧
    ∀ q ∈ qualitiesFromFormats formats, (q.height, q.label) ∈ qualityLabelRange := by
  have h := dedupe_sort_spec
    (((formats.filter isVideoFmt).mergeSort
        (fun a b => b.height.getD 0 ≤ a.height.getD 0)).map
      fun f => get_quality_label (f.height.getD 0))
    (by
      intro x hx
      rcases List.mem_map.mp hx with ⟨f, -, hf⟩
      rw [← hf]
      exact get_quality_label_mem _)
  exact h

/-- C9: `get_available_qualities` always returns a non-empty list with
pairwise-distinct labels and strictly decreasing heights, and returns the
fixed default list of four qualities when every extractor attempt fails; in
particular the caller's fallback branch for an empty list is unreachable. -/
theorem claim_C9_get_available_qualities (attempts : List (Option (List Fmt))) :
    get_available_qualities attempts ≠ [] ∧
    ((get_available_qualities attempts).map Quality.label).Nodup ∧
    List.Pairwise (fun a b : Quality => b.height < a.height)
      (get_available_qualities attempts) ∧
    ((∀ fs ∈ attempts, ∀ fmts, fs = some fmts → qualitiesFromFormats fmts = []) →
      get_available_qualities attempts = defaultQualities) := by
  induction attempts with
  | nil =>
    refine ⟨?_, ?_, ?_, fun _ => rfl⟩
    · simp [get_available_qualities, defaultQualities]
    · simp only [get_available_qualities]
      decide
    · simp only [get_available_qualities]
      decide
  | cons a rest ih =>
    obtain ⟨ihne, ihnd, ihpw, ihdef⟩ := ih
    cases a with
    | none =>
      refine ⟨?_, ?_, ?_, ?_⟩
      · simpa [get_available_qualities] using ihne
      · simpa [get_available_qualities] using ihnd
      · simpa [get_available_qualities] using ihpw
      · intro hall
        rw [show get_available_qualities (none :: rest) =
          get_available_qualities rest from rfl]
        exact ihdef fun fs hfs fmts heq =>
          hall fs (List.mem_cons_of_mem _ hfs) fmts heq
    | some fmts =>
      by_cases hq : (qualitiesFromFormats fmts).isEmpty = true
      · have hred : get_available_qualities (some fmts :: rest) =
            get_available_qualities rest := by
          rw [get_available_qualities]
          simp only [hq, if_true]
        refine ⟨?_, ?_, ?_, ?_⟩
        · rw [hred]; exact ihne
        · rw [hred]; exact ihnd
        · rw [hred]; exact ihpw
        · intro hall
          rw [hred]
          exact ihdef fun fs hfs fmts' heq =>
            hall fs (List.mem_cons_of_mem _ hfs) fmts' heq
      · have hred : get_available_qualities (some fmts :: rest) =
            qualitiesFromFormats fmts := by
          rw [get_available_qualities]
          rw [if_neg (by simpa using hq)]
        obtain ⟨hnd, hpw, -⟩ := qualitiesFromFormats_spec fmts
        refine ⟨?_, ?_, ?_, ?_⟩
        · rw [hred]
          intro hcontra
          rw [hcontra] at hq
          simp at hq
        · rw [hred]; exact hnd
        · rw [hred]; exact hpw
        · intro hall
          exact absurd (hall (some fmts) (by simp) fmts rfl)
            (by simpa [List.isEmpty_iff] using hq)

end YTBot
